import Mathlib

/-!
# The temperature-stabilisation client (`tcp_client.c`)

A shallow embedding of `main` of `tcp_client.c`: the external process that
connects to the central process, sends its temperature, and then repeats
"receive the central temperature, relax towards it, send the new value" until
the central process sends a message whose `Index` is `-1`.

* The C `float`/`double` arithmetic of line 93 is embedded over IEEE 754
  binary32/binary64 values with round-to-nearest-even (`FP`, `Fmt.round`),
  evaluated operation by operation in `double` and narrowed on assignment
  (`FLT_EVAL_METHOD == 0`, no contraction into fused multiply-add).
* The system calls are an explicit environment `Env`: the return values of
  `socket`, `connect`, of the successive `send` calls and of the successive
  `recv` calls together with what `recv` left in `the_message`.
* `main` returns an `Outcome`: the exit path taken, the value returned, the
  number of `close` calls, the messages sent, the lines printed.
-/

namespace TempClient

/-! ## Floating-point values -/

/-- A floating-point datum: not-a-number, a signed infinity, a signed zero, or a
non-zero finite value (kept as the rational it denotes).  All NaNs are
identified. -/
inductive FP where
  | nan
  | inf (neg : Bool)
  | zero (neg : Bool)
  | fin (q : ℚ)
deriving DecidableEq

/-- A binary interchange format: precision in bits and largest exponent. -/
structure Fmt where
  prec : Nat
  emax : Int

/-- C `float`. -/
def binary32 : Fmt := ⟨24, 127⟩

/-- C `double`. -/
def binary64 : Fmt := ⟨53, 1023⟩

/-- Exponent of the last place of the subnormal numbers of the format
(`-149` for binary32, `-1074` for binary64). -/
def Fmt.qmin (f : Fmt) : Int := (1 - f.emax) - ((f.prec : Int) - 1)

/-- Exponent of the unit in the last place available to a value of the size
of `q`: `prec` bits below its leading bit, but never under `qmin`. -/
def Fmt.quantum (f : Fmt) (q : ℚ) : Int :=
  max (Int.log 2 |q| - ((f.prec : Int) - 1)) f.qmin

/-- Nearest integer, ties to the even one. -/
def roundEven (q : ℚ) : Int :=
  let n := Int.floor q
  let r := q - n
  if r < 1 / 2 then n
  else if 1 / 2 < r then n + 1
  else if n % 2 = 0 then n
  else n + 1

/-- Round-to-nearest-even of the non-zero real `q` into the format: the
nearest multiple of the quantum, a signed zero on total underflow, a signed
infinity when the rounded magnitude reaches `2 ^ (emax + 1)`. -/
def Fmt.round (f : Fmt) (q : ℚ) : FP :=
  let e := f.quantum q
  let r : ℚ := (roundEven (q / 2 ^ e) : ℚ) * 2 ^ e
  if r = 0 then .zero (decide (q < 0))
  else if (2 : ℚ) ^ (f.emax + 1) ≤ |r| then .inf (decide (q < 0))
  else .fin r

/-- The non-zero rational `q` is a finite number of the format: a multiple of
its quantum, of magnitude below `2 ^ (emax + 1)`. -/
def Fmt.Rep (f : Fmt) (q : ℚ) : Prop :=
  q ≠ 0 ∧ ((Int.floor (q / 2 ^ f.quantum q) : Int) : ℚ) = q / 2 ^ f.quantum q ∧
    |q| < 2 ^ (f.emax + 1)

instance (f : Fmt) (q : ℚ) : Decidable (f.Rep q) := by
  unfold Fmt.Rep; infer_instance

/-- The datum is a value of the format. -/
def FP.IsIn (f : Fmt) : FP → Prop
  | .fin q => f.Rep q
  | _ => True

instance (f : Fmt) (x : FP) : Decidable (x.IsIn f) := by
  cases x <;> unfold FP.IsIn <;> infer_instance

/-- Sign bit. -/
def FP.sign : FP → Bool
  | .nan => false
  | .inf s => s
  | .zero s => s
  | .fin q => decide (q < 0)

/-- The `double` product `a * b`. -/
def mul64 : FP → FP → FP
  | .nan, _ => .nan
  | _, .nan => .nan
  | .inf _, .zero _ => .nan
  | .zero _, .inf _ => .nan
  | .inf s, b => .inf (xor s b.sign)
  | a, .inf s => .inf (xor a.sign s)
  | .zero s, b => .zero (xor s b.sign)
  | a, .zero s => .zero (xor a.sign s)
  | .fin a, .fin b => binary64.round (a * b)

/-- The `double` sum `a + b`. -/
def add64 : FP → FP → FP
  | .nan, _ => .nan
  | _, .nan => .nan
  | .inf s, .inf t => if s = t then .inf s else .nan
  | .inf s, _ => .inf s
  | _, .inf t => .inf t
  | .zero s, .zero t => .zero (s && t)
  | .zero _, .fin b => .fin b
  | .fin a, .zero _ => .fin a
  | .fin a, .fin b => if a + b = 0 then .zero false else binary64.round (a + b)

/-- The `double` quotient `a / b`. -/
def div64 : FP → FP → FP
  | .nan, _ => .nan
  | _, .nan => .nan
  | .inf _, .inf _ => .nan
  | .zero _, .zero _ => .nan
  | .inf s, b => .inf (xor s b.sign)
  | a, .inf t => .zero (xor a.sign t)
  | .zero s, b => .zero (xor s b.sign)
  | a, .zero t => .inf (xor a.sign t)
  | .fin a, .fin b => binary64.round (a / b)

/-- Conversion `float` to `double` (the usual arithmetic conversion of a
`float` operand next to a `double` one): exact, every binary32 value is a
binary64 value. -/
def f32_to_f64 (x : FP) : FP := x

/-- Conversion `double` to `float` (assignment to a `float` object). -/
def f64_to_f32 : FP → FP
  | .fin q => binary32.round q
  | x => x

/-! ## The program -/

/-- Structure `msg` of `utils.h`: a temperature and the index of the process
that produced it. -/
structure msg where
  T : FP
  Index : Int
deriving DecidableEq

/-- Modelled from the spec: `utils.h` and the definition of `prepare_message`
are not among the sources; §4.3 has the client build
`Message{index: configuredIndex, temperature: currentTemperature}`. -/
def prepare_message (i_Index : Int) (i_Temperature : FP) : msg :=
  { T := i_Temperature, Index := i_Index }

/-- Modelled from the spec: `sizeof(struct msg)`, the fixed width of a message
on the wire; §6 gives a signed 32-bit integer and a 32-bit float. -/
def sizeof_msg : Int := 8

/-- Line 93: `currentTemp = (3.0 * currentTemp + 2.0 * centralTemp) / 5.0;`
The constants are `double`, so both `float` operands are promoted, the
expression is evaluated in `double`, and the result is narrowed to `float`. -/
def updateTemp (currentTemp centralTemp : FP) : FP :=
  f64_to_f32
    (div64
      (add64 (mul64 (.fin 3) (f32_to_f64 currentTemp))
             (mul64 (.fin 2) (f32_to_f64 centralTemp)))
      (.fin 5))

/-- What one call `recv(socket_desc, &the_message, sizeof(the_message), 0)`
did: the value it returned, and the contents of `the_message` when it
returned (for a short read: the bytes received laid over what the structure
held before). -/
structure Recv where
  byte : Int
  buf : msg

/-- The system calls as seen by one run. `sendRet k` is what the `k`-th call
of `send` returns (the initial send is call `0`, the send of round `k` is call
`k`); `recvs` lists the `recv` calls that return, in order: after the last one
`recv` blocks for ever. -/
structure Env where
  socketRet : Int
  connectRet : Int
  sendRet : Nat → Int
  recvs : List Recv

/-- The lines the program prints, one constructor per `printf`. -/
inductive Line where
  | unableToCreateSocket
  | socketCreated
  | unableToConnect
  | connected
  | dashesBlank
  | dashes
  | unableToSendInitial
  | sentInitial (currentTemp : FP)
  | errorReceiving
  | serverTerminated
  | equals
  | convergenceAchieved
  | finalTemperature (externalIndex : Int) (currentTemp : FP)
  | received (iteration : Nat) (centralTemp : FP)
  | updated (iteration : Nat) (currentTemp : FP)
  | unableToSendUpdated
deriving DecidableEq

/-- The statement through which the run left `main` (or `blocked`: it did not,
`recv` never returned). -/
inductive Exit where
  | socketError
  | connectError
  | initialSendError
  | recvError
  | sendError
  | peerClosed
  | converged
  | blocked
deriving DecidableEq

/-- The three terminal states of §4.3 of the spec. -/
inductive Terminal where
  | Converged
  | Terminated
  | Failed
deriving DecidableEq

/-- The terminal state an exit path stands for. -/
def Exit.terminal : Exit → Option Terminal
  | .converged => some .Converged
  | .peerClosed => some .Terminated
  | .blocked => none
  | _ => some .Failed

/-- What a run did. `ret` is the value `main` returned, `closes` the number
of calls of `close(socket_desc)`, `sent` the messages handed to the `send`
calls that did not fail, `log` the lines printed, `currentTemp` the last value
of the variable. -/
structure Outcome where
  exit : Exit
  ret : Option Int
  closes : Nat
  sent : List msg
  log : List Line
  currentTemp : FP
deriving DecidableEq

/-- The outcome `o` of the rest of the run, after the lines `ls` were printed
and the messages `ms` sent. -/
def Outcome.after (ls : List Line) (ms : List msg) (o : Outcome) : Outcome :=
  { o with sent := ms ++ o.sent, log := ls ++ o.log }

/-- Lines 104-107, reached by `break`: close the socket, return 0. -/
def leaveLoop (exit : Exit) (log : List Line) (currentTemp : FP) : Outcome :=
  { exit := exit, ret := some 0, closes := 1, sent := [], log := log,
    currentTemp := currentTemp }

/-- An early `return -1;`. -/
def returnError (exit : Exit) (log : List Line) (currentTemp : FP) : Outcome :=
  { exit := exit, ret := some (-1), closes := 0, sent := [], log := log,
    currentTemp := currentTemp }

/-- Lines 61-102, `while (1) { ... }`, entered with the given `currentTemp`
and `iteration`, on the `recv` results still to come.  (`iteration` is only
printed; it is counted without the wrap-around of `int`.) -/
def loop (externalIndex : Int) (sendRet : Nat → Int) :
    List Recv → FP → Nat → Outcome
  | [], currentTemp, _ =>
    { exit := .blocked, ret := none, closes := 0, sent := [], log := [],
      currentTemp := currentTemp }
  | r :: rest, currentTemp, iteration =>
    let iteration := iteration + 1
    let byte := r.byte
    let the_message := r.buf
    if byte < 0 then
      returnError .recvError [.errorReceiving] currentTemp
    else if byte = 0 then
      leaveLoop .peerClosed [.serverTerminated] currentTemp
    else if the_message.Index = -1 then
      leaveLoop .converged
        [.equals, .convergenceAchieved, .finalTemperature externalIndex currentTemp,
          .equals] currentTemp
    else
      let centralTemp := the_message.T
      let currentTemp := updateTemp currentTemp centralTemp
      let the_message := prepare_message externalIndex currentTemp
      if sendRet iteration < 0 then
        returnError .sendError
          [.dashes, .received iteration centralTemp, .updated iteration currentTemp,
            .unableToSendUpdated] currentTemp
      else
        (loop externalIndex sendRet rest currentTemp iteration).after
          [.dashes, .received iteration centralTemp, .updated iteration currentTemp]
          [the_message]

/-- The function `main`, from line 23 on: `externalIndex` and
`initialTemperature` are the values of the two variables after lines 20-21
(`atoi(argv[1])`, and `atof(argv[2])` narrowed to `float`). -/
def main (externalIndex : Int) (initialTemperature : FP) (env : Env) : Outcome :=
  let currentTemp := initialTemperature
  if env.socketRet < 0 then
    returnError .socketError [.unableToCreateSocket] currentTemp
  else if env.connectRet < 0 then
    returnError .connectError [.socketCreated, .unableToConnect] currentTemp
  else
    let the_message := prepare_message externalIndex currentTemp
    if env.sendRet 0 < 0 then
      returnError .initialSendError
        [.socketCreated, .connected, .dashesBlank, .unableToSendInitial] currentTemp
    else
      (loop externalIndex env.sendRet env.recvs currentTemp 0).after
        [.socketCreated, .connected, .dashesBlank, .sentInitial currentTemp]
        [the_message]

/-- The temperature printed as the final one on convergence (line 81), if the
line was printed. -/
def reported : List Line → Option FP
  | [] => none
  | .finalTemperature _ t :: _ => some t
  | _ :: ls => reported ls

/-- The exit status of the process: the low eight bits of what `main`
returned. -/
def exitStatus (o : Outcome) : Option Int := o.ret.map (fun r => r % 256)

/-- The temperatures `T_1, T_2, ...` the update rule produces from `t` on the
central values `cs`, one per round: `T_j` from `T_(j-1)` and `c_j`. -/
def temps (t : FP) : List FP → List FP
  | [] => []
  | c :: cs => updateTemp t c :: temps (updateTemp t c) cs

/-- The temperature after all the rounds on the central values `cs`. -/
def lastTemp (t : FP) : List FP → FP
  | [] => t
  | c :: cs => lastTemp (updateTemp t c) cs

/-- The central values a list of `recv` results carries. -/
def centrals (rs : List Recv) : List FP := rs.map (fun r => r.buf.T)

/-! ## Concrete runs -/

/-- Every `send` writes the whole message. -/
def sendOk : Nat → Int := fun _ => sizeof_msg

/-- The central process answers `0.0` once, then sends the message with
index `-1`. -/
def envOneRound : Env :=
  { socketRet := 3, connectRet := 0, sendRet := sendOk,
    recvs := [⟨8, ⟨.zero false, 0⟩⟩, ⟨8, ⟨.zero false, -1⟩⟩] }

/-- The central process answers the client's own `100.0` twice, then the
message with index `-1`. -/
def envSteady : Env :=
  { socketRet := 3, connectRet := 0, sendRet := sendOk,
    recvs := [⟨8, ⟨.fin 100, 0⟩⟩, ⟨8, ⟨.fin 100, 0⟩⟩, ⟨8, ⟨.zero false, -1⟩⟩] }

/-- The central process answers `0.0` twice, then sends the message with
index `-1`. -/
def envTwoRounds : Env :=
  { socketRet := 3, connectRet := 0, sendRet := sendOk,
    recvs := [⟨8, ⟨.zero false, 0⟩⟩, ⟨8, ⟨.zero false, 7⟩⟩, ⟨8, ⟨.fin 5, -1⟩⟩] }

/-- The client is started with index `-1`; nothing is received. -/
def envSilent : Env :=
  { socketRet := 3, connectRet := 0, sendRet := sendOk, recvs := [] }

/-- The central process accepts the connection and closes it at once. -/
def envPeerCloses : Env :=
  { socketRet := 3, connectRet := 0, sendRet := sendOk,
    recvs := [⟨0, ⟨.fin 100, 1⟩⟩] }

/-- The connection is refused. -/
def envConnectFails : Env :=
  { socketRet := 3, connectRet := -1, sendRet := sendOk, recvs := [] }

/-- The first `send` fails. -/
def envInitialSendFails : Env :=
  { socketRet := 3, connectRet := 0, sendRet := fun _ => -1, recvs := [] }

/-- The first `recv` fails. -/
def envRecvFails : Env :=
  { socketRet := 3, connectRet := 0, sendRet := sendOk,
    recvs := [⟨-1, ⟨.fin 100, 1⟩⟩] }

/-- The `send` of the first round fails. -/
def envRoundSendFails : Env :=
  { socketRet := 3, connectRet := 0, sendRet := fun k => if k = 0 then 8 else -1,
    recvs := [⟨8, ⟨.zero false, 0⟩⟩] }

/-- A short read: `recv` delivers 4 of the 8 bytes, and they equal the first
4 bytes of the message the client (index 1, temperature 100.0) has just sent
from the same structure, so `the_message` still reads `{1, 100.0}`; nothing
more arrives. -/
def envShortRead : Env :=
  { socketRet := 3, connectRet := 0, sendRet := sendOk,
    recvs := [⟨4, ⟨.fin 100, 1⟩⟩] }

/-! ## Lemmas on rounding -/

theorem roundEven_intCast (m : ℤ) : roundEven (m : ℚ) = m := by
  simp [roundEven]

theorem two_zpow_pos (e : ℤ) : (0 : ℚ) < 2 ^ e := zpow_pos (by norm_num) e

/-- The quantum of `m * 2 ^ e` is at most `e` when `m` has at most `prec` bits. -/
theorem Fmt.quantum_le (f : Fmt) (m e : ℤ) (hm0 : m ≠ 0) (hm : |m| < 2 ^ f.prec)
    (he : f.qmin ≤ e) : f.quantum ((m : ℚ) * 2 ^ e) ≤ e := by
  unfold Fmt.quantum
  apply max_le _ he
  have hpos : (0 : ℚ) < |(m : ℚ) * 2 ^ e| := by
    apply abs_pos.mpr
    exact mul_ne_zero (by exact_mod_cast hm0) (two_zpow_pos e).ne.symm
  have hlt : |(m : ℚ) * 2 ^ e| < ((2 : ℕ) : ℚ) ^ ((f.prec : ℤ) + e) := by
    rw [abs_mul, abs_of_pos (two_zpow_pos e), zpow_add₀ (by norm_num), zpow_natCast]
    apply mul_lt_mul_of_pos_right _ (two_zpow_pos e)
    have : ((|m| : ℤ) : ℚ) < ((2 ^ f.prec : ℤ) : ℚ) := by exact_mod_cast hm
    simpa using this
  have := (Int.lt_zpow_iff_log_lt (by norm_num : 1 < 2) hpos).mp hlt
  omega

theorem Fmt.round_exact (f : Fmt) (m e : ℤ) (hm0 : m ≠ 0) (hm : |m| < 2 ^ f.prec)
    (he : f.qmin ≤ e) (hlt : |(m : ℚ) * 2 ^ e| < 2 ^ (f.emax + 1)) :
    f.round ((m : ℚ) * 2 ^ e) = .fin ((m : ℚ) * 2 ^ e) := by
  have hq := f.quantum_le m e hm0 hm he
  obtain ⟨k, hk⟩ := Int.le.dest hq
  have hne : (m : ℚ) * 2 ^ e ≠ 0 :=
    mul_ne_zero (by exact_mod_cast hm0) (two_zpow_pos e).ne.symm
  unfold Fmt.round
  generalize f.quantum ((m : ℚ) * 2 ^ e) = E at hk
  have hpow : (2 : ℚ) ^ e = 2 ^ E * 2 ^ k := by
    rw [← hk, zpow_add₀ (by norm_num), zpow_natCast]
  have hE := (two_zpow_pos E).ne.symm
  have hdiv : (m : ℚ) * 2 ^ e / 2 ^ E = ((m * 2 ^ k : ℤ) : ℚ) := by
    rw [hpow]
    field_simp
    ring
  have hr : (roundEven ((m : ℚ) * 2 ^ e / 2 ^ E) : ℚ) * 2 ^ E = (m : ℚ) * 2 ^ e := by
    rw [hdiv, roundEven_intCast, ← hdiv]
    field_simp
  simp only [hr, hne, if_false, not_le.mpr hlt]


theorem Fmt.Rep.decomp {f : Fmt} {q : ℚ} (h : f.Rep q) :
    ∃ m : ℤ, q = (m : ℚ) * 2 ^ f.quantum q ∧ m ≠ 0 ∧ |m| < 2 ^ f.prec := by
  obtain ⟨hq0, hint, -⟩ := h
  have hE := two_zpow_pos (f.quantum q)
  have hq : q = (Int.floor (q / 2 ^ f.quantum q) : ℚ) * 2 ^ f.quantum q := by
    rw [hint]; field_simp
  refine ⟨Int.floor (q / 2 ^ f.quantum q), hq, ?_, ?_⟩
  · intro h0
    rw [h0] at hq
    simp at hq
    exact hq0 hq
  · have h1 : |q| < ((2 : ℕ) : ℚ) ^ (Int.log 2 |q| + 1) :=
      Int.lt_zpow_succ_log_self (by norm_num) _
    have h2 : Int.log 2 |q| + 1 ≤ f.quantum q + f.prec := by
      have : Int.log 2 |q| - ((f.prec : Int) - 1) ≤ f.quantum q := le_max_left _ _
      omega
    have h3 : |q| < (2 : ℚ) ^ (f.quantum q + f.prec) :=
      lt_of_lt_of_le (by simpa using h1) (zpow_le_zpow_right₀ (by norm_num) h2)
    rw [zpow_add₀ (by norm_num), zpow_natCast] at h3
    have h4 : |q| = |(Int.floor (q / 2 ^ f.quantum q) : ℚ)| * 2 ^ f.quantum q := by
      conv_lhs => rw [hq]
      rw [abs_mul, abs_of_pos hE]
    rw [h4, mul_comm] at h3
    have h5 := lt_of_mul_lt_mul_left h3 hE.le
    exact_mod_cast h5

theorem round64_scale (k : ℤ) (hk0 : k ≠ 0) (hk : |k| ≤ 5) {q : ℚ} (h : binary32.Rep q) :
    binary64.round ((k : ℚ) * q) = .fin ((k : ℚ) * q) := by
  obtain ⟨m, hq, hm0, hm⟩ := h.decomp
  have hqmin : binary32.qmin ≤ binary32.quantum q := le_max_right _ _
  have hrange := h.2.2
  have hk5 : |(k : ℚ)| ≤ 5 := by exact_mod_cast hk
  have key : (k : ℚ) * q = ((k * m : ℤ) : ℚ) * 2 ^ binary32.quantum q := by
    conv_lhs => rw [hq]
    push_cast; ring
  rw [key]
  apply Fmt.round_exact
  · exact mul_ne_zero hk0 hm0
  · rw [abs_mul]
    have : |k| * |m| < 5 * 2 ^ 24 := by
      have hm24 : |m| < 2 ^ 24 := hm
      have := abs_nonneg k
      have := abs_nonneg m
      nlinarith
    calc |k| * |m| < 5 * 2 ^ 24 := this
      _ ≤ 2 ^ binary64.prec := by norm_num [binary64]
  · have : binary64.qmin ≤ binary32.qmin := by norm_num [Fmt.qmin, binary64, binary32]
    omega
  · rw [← key, abs_mul]
    have h128 : |q| < 2 ^ (128 : ℤ) := by simpa [binary32] using hrange
    have hq0 := abs_nonneg q
    calc |(k : ℚ)| * |q| ≤ 5 * |q| := by nlinarith
      _ < 5 * 2 ^ (128 : ℤ) := by nlinarith
      _ ≤ 2 ^ (binary64.emax + 1) := by norm_num [binary64]


/-- Rounding leaves the numbers of the format alone. -/
theorem Fmt.round_of_rep {f : Fmt} {q : ℚ} (h : f.Rep q) : f.round q = .fin q := by
  obtain ⟨m, hq, hm0, hm⟩ := h.decomp
  have key := Fmt.round_exact f m (f.quantum q) hm0 hm (le_max_right _ _)
    (by rw [← hq]; exact h.2.2)
  rwa [← hq] at key

theorem updateTemp_self (x : FP) (hx : x.IsIn binary32) : updateTemp x x = x := by
  cases x with
  | nan => rfl
  | inf s => cases s <;> norm_num [updateTemp, f32_to_f64, mul64, add64, div64, f64_to_f32, FP.sign]
  | zero s => cases s <;> norm_num [updateTemp, f32_to_f64, mul64, add64, div64, f64_to_f32, FP.sign]
  | fin q =>
    have hq : binary32.Rep q := hx
    have h3 := round64_scale 3 (by norm_num) (by norm_num) hq
    have h2 := round64_scale 2 (by norm_num) (by norm_num) hq
    have h5 := round64_scale 5 (by norm_num) (by norm_num) hq
    have h1 := round64_scale 1 (by norm_num) (by norm_num) hq
    have hq0 : q ≠ 0 := hq.1
    have e5 : (3 : ℚ) * q + 2 * q = 5 * q := by ring
    have e1 : (5 : ℚ) * q / 5 = 1 * q := by ring
    have hne : (5 : ℚ) * q ≠ 0 := mul_ne_zero (by norm_num) hq0
    norm_num at h1 h2 h3 h5
    simp only [updateTemp, f32_to_f64, mul64, h3, h2, add64, e5, hne, if_false, h5, div64, e1,
      one_mul, h1, f64_to_f32, Fmt.round_of_rep hq]

theorem Fmt.round_intCast (f : Fmt) (n : ℤ) (hn0 : n ≠ 0) (hn : |n| < 2 ^ f.prec)
    (hq : f.qmin ≤ 0) (hmax : |(n : ℚ)| < 2 ^ (f.emax + 1)) :
    f.round (n : ℚ) = .fin (n : ℚ) := by
  have := f.round_exact n 0 hn0 hn hq (by simpa using hmax)
  simpa using this

theorem updateTemp_10_20 : updateTemp (.fin 10) (.fin 20) = .fin 14 := by
  have r30 := binary64.round_intCast 30 (by norm_num) (by norm_num [binary64])
    (by norm_num [Fmt.qmin, binary64]) (by norm_num [binary64])
  have r40 := binary64.round_intCast 40 (by norm_num) (by norm_num [binary64])
    (by norm_num [Fmt.qmin, binary64]) (by norm_num [binary64])
  have r70 := binary64.round_intCast 70 (by norm_num) (by norm_num [binary64])
    (by norm_num [Fmt.qmin, binary64]) (by norm_num [binary64])
  have r14 := binary64.round_intCast 14 (by norm_num) (by norm_num [binary64])
    (by norm_num [Fmt.qmin, binary64]) (by norm_num [binary64])
  have s14 := binary32.round_intCast 14 (by norm_num) (by norm_num [binary32])
    (by norm_num [Fmt.qmin, binary32]) (by norm_num [binary32])
  norm_num at r30 r40 r70 r14 s14
  norm_num [updateTemp, f32_to_f64, mul64, add64, div64, f64_to_f32, r30, r40, r70, r14, s14]

theorem Fmt.rep_exact (f : Fmt) (m e : ℤ) (hm0 : m ≠ 0) (hm : |m| < 2 ^ f.prec)
    (he : f.qmin ≤ e) (hlt : |(m : ℚ) * 2 ^ e| < 2 ^ (f.emax + 1)) :
    f.Rep ((m : ℚ) * 2 ^ e) := by
  have hq := f.quantum_le m e hm0 hm he
  obtain ⟨k, hk⟩ := Int.le.dest hq
  have hne : (m : ℚ) * 2 ^ e ≠ 0 :=
    mul_ne_zero (by exact_mod_cast hm0) (two_zpow_pos e).ne.symm
  refine ⟨hne, ?_, hlt⟩
  generalize f.quantum ((m : ℚ) * 2 ^ e) = E at hk
  have hpow : (2 : ℚ) ^ e = 2 ^ E * 2 ^ k := by
    rw [← hk, zpow_add₀ (by norm_num), zpow_natCast]
  have hE := (two_zpow_pos E).ne.symm
  have hdiv : (m : ℚ) * 2 ^ e / 2 ^ E = ((m * 2 ^ k : ℤ) : ℚ) := by
    rw [hpow]
    field_simp
    ring
  rw [hdiv, Int.floor_intCast]

/-- The numbers of a format are the `m * 2 ^ e` with `m` of at most `prec`
bits, `e` not under `qmin`, and magnitude under `2 ^ (emax + 1)`. -/
theorem Fmt.rep_iff (f : Fmt) (q : ℚ) :
    f.Rep q ↔ ∃ m e : ℤ, m ≠ 0 ∧ |m| < 2 ^ f.prec ∧ f.qmin ≤ e ∧
      |q| < 2 ^ (f.emax + 1) ∧ q = (m : ℚ) * 2 ^ e := by
  constructor
  · intro h
    obtain ⟨m, hq, hm0, hm⟩ := h.decomp
    exact ⟨m, f.quantum q, hm0, hm, le_max_right _ _, h.2.2, hq⟩
  · rintro ⟨m, e, hm0, hm, he, hlt, rfl⟩
    exact f.rep_exact m e hm0 hm he hlt

/-- The update is exact whenever it can be: on finite `float` values `a`, `c`
for which `3a + 2c` is a `double` and `(3a + 2c) / 5` is a `float`. -/
theorem updateTemp_exact (a c : ℚ) (ha : binary32.Rep a) (hc : binary32.Rep c)
    (hsum : binary64.Rep (3 * a + 2 * c)) (hres : binary32.Rep ((3 * a + 2 * c) / 5)) :
    updateTemp (.fin a) (.fin c) = .fin ((3 * a + 2 * c) / 5) := by
  have h3 := round64_scale 3 (by norm_num) (by norm_num) ha
  have h2 := round64_scale 2 (by norm_num) (by norm_num) hc
  have h1 := round64_scale 1 (by norm_num) (by norm_num) hres
  norm_num at h1 h2 h3
  simp only [updateTemp, f32_to_f64, mul64, h3, h2, add64, hsum.1, if_false,
    Fmt.round_of_rep hsum, div64, h1, f64_to_f32, Fmt.round_of_rep hres]

/-! ## Lemmas on the loop -/

theorem loop_recv_error (i : Int) (s : Nat → Int) (r : Recv) (rest : List Recv) (x : FP)
    (it : Nat) (h : r.byte < 0) :
    loop i s (r :: rest) x it = returnError .recvError [.errorReceiving] x := by
  simp [loop, h]

theorem loop_closed (i : Int) (s : Nat → Int) (r : Recv) (rest : List Recv) (x : FP)
    (it : Nat) (h : r.byte = 0) :
    loop i s (r :: rest) x it = leaveLoop .peerClosed [.serverTerminated] x := by
  simp [loop, h]

theorem loop_sentinel (i : Int) (s : Nat → Int) (r : Recv) (rest : List Recv) (x : FP)
    (it : Nat) (h : 0 < r.byte) (hi : r.buf.Index = -1) :
    loop i s (r :: rest) x it =
      leaveLoop .converged
        [.equals, .convergenceAchieved, .finalTemperature i x, .equals] x := by
  have h1 : ¬ r.byte < 0 := by omega
  have h2 : r.byte ≠ 0 := by omega
  simp [loop, h1, h2, hi]

theorem loop_send_error (i : Int) (s : Nat → Int) (r : Recv) (rest : List Recv) (x : FP)
    (it : Nat) (h : 0 < r.byte) (hi : r.buf.Index ≠ -1) (hs : s (it + 1) < 0) :
    loop i s (r :: rest) x it =
      returnError .sendError
        [.dashes, .received (it + 1) r.buf.T, .updated (it + 1) (updateTemp x r.buf.T),
          .unableToSendUpdated] (updateTemp x r.buf.T) := by
  have h1 : ¬ r.byte < 0 := by omega
  have h2 : r.byte ≠ 0 := by omega
  simp [loop, h1, h2, hi, hs]

theorem loop_round (i : Int) (s : Nat → Int) (r : Recv) (rest : List Recv) (x : FP)
    (it : Nat) (h : 0 < r.byte) (hi : r.buf.Index ≠ -1) (hs : 0 ≤ s (it + 1)) :
    loop i s (r :: rest) x it =
      (loop i s rest (updateTemp x r.buf.T) (it + 1)).after
        [.dashes, .received (it + 1) r.buf.T, .updated (it + 1) (updateTemp x r.buf.T)]
        [prepare_message i (updateTemp x r.buf.T)] := by
  have h1 : ¬ r.byte < 0 := by omega
  have h2 : r.byte ≠ 0 := by omega
  have h3 : ¬ s (it + 1) < 0 := by omega
  simp [loop, h1, h2, hi, h3]

theorem after_after (ls ls2 : List Line) (ms ms2 : List msg) (o : Outcome) :
    (o.after ls ms).after ls2 ms2 = o.after (ls2 ++ ls) (ms2 ++ ms) := by
  simp [Outcome.after]

theorem reported_append (ls ls2 : List Line) (h : reported ls = none) :
    reported (ls ++ ls2) = reported ls2 := by
  induction ls with
  | nil => rfl
  | cons l ls ih =>
    cases l <;> simp_all [reported]

/-- A run of rounds: on `recv` results that all carry data and an index other
than `-1`, with every `send` succeeding, the loop sends one message per round,
built from the configured index and the successive temperatures, and goes on
from the last temperature. -/
theorem loop_rounds (i : Int) (s : Nat → Int) (hs : ∀ k, 0 ≤ s k) (rs : List Recv)
    (hrs : ∀ r ∈ rs, 0 < r.byte ∧ r.buf.Index ≠ -1) (tail : List Recv) (x : FP) (it : Nat) :
    ∃ ls, reported ls = none ∧
      loop i s (rs ++ tail) x it =
        (loop i s tail (lastTemp x (centrals rs)) (it + rs.length)).after ls
          ((temps x (centrals rs)).map (prepare_message i)) := by
  induction rs generalizing x it with
  | nil => exact ⟨[], rfl, by simp [Outcome.after, centrals, lastTemp, temps]⟩
  | cons r rs ih =>
    have hr := hrs r (List.mem_cons_self _ _)
    obtain ⟨ls, hls, heq⟩ :=
      ih (fun r2 h2 => hrs r2 (List.mem_cons_of_mem _ h2)) (updateTemp x r.buf.T) (it + 1)
    refine ⟨[.dashes, .received (it + 1) r.buf.T, .updated (it + 1) (updateTemp x r.buf.T)]
      ++ ls, ?_, ?_⟩
    · simpa [reported] using hls
    · rw [List.cons_append, loop_round i s r _ x it hr.1 hr.2 (hs _), heq, after_after]
      simp [centrals, lastTemp, temps, Nat.add_assoc, Nat.add_comm 1]

theorem loop_sent_index (i : Int) (s : Nat → Int) (rs : List Recv) (x : FP) (it : Nat) :
    ∀ m ∈ (loop i s rs x it).sent, m.Index = i := by
  induction rs generalizing x it with
  | nil => simp [loop]
  | cons r rs ih =>
    by_cases h1 : r.byte < 0
    · simp [loop_recv_error i s r rs x it h1, returnError]
    by_cases h2 : r.byte = 0
    · simp [loop_closed i s r rs x it h2, leaveLoop]
    have h : 0 < r.byte := by omega
    by_cases h3 : r.buf.Index = -1
    · simp [loop_sentinel i s r rs x it h h3, leaveLoop]
    by_cases h4 : s (it + 1) < 0
    · simp [loop_send_error i s r rs x it h h3 h4, returnError]
    rw [loop_round i s r rs x it h h3 (by omega)]
    intro m hm
    simp only [Outcome.after, List.mem_append, List.mem_singleton] at hm
    rcases hm with hm | hm
    · rw [hm]; rfl
    · exact ih _ _ m hm

/-- The value returned and the number of `close` calls, by exit path, for
the loop. -/
theorem loop_exit_ret (i : Int) (s : Nat → Int) (rs : List Recv) (x : FP) (it : Nat) :
    (((loop i s rs x it).exit = .converged ∨ (loop i s rs x it).exit = .peerClosed) ∧
        (loop i s rs x it).ret = some 0 ∧ (loop i s rs x it).closes = 1) ∨
    (((loop i s rs x it).exit = .recvError ∨ (loop i s rs x it).exit = .sendError) ∧
        (loop i s rs x it).ret = some (-1) ∧ (loop i s rs x it).closes = 0) ∨
    ((loop i s rs x it).exit = .blocked ∧
        (loop i s rs x it).ret = none ∧ (loop i s rs x it).closes = 0) := by
  induction rs generalizing x it with
  | nil => simp [loop]
  | cons r rs ih =>
    by_cases h1 : r.byte < 0
    · simp [loop_recv_error i s r rs x it h1, returnError]
    by_cases h2 : r.byte = 0
    · simp [loop_closed i s r rs x it h2, leaveLoop]
    have h : 0 < r.byte := by omega
    by_cases h3 : r.buf.Index = -1
    · simp [loop_sentinel i s r rs x it h h3, leaveLoop]
    by_cases h4 : s (it + 1) < 0
    · simp [loop_send_error i s r rs x it h h3 h4, returnError]
    rw [loop_round i s r rs x it h h3 (by omega)]
    exact ih _ _

/-- The run once the socket is connected and the initial message sent. -/
theorem main_connected (i : Int) (t : FP) (env : Env) (hsock : 0 ≤ env.socketRet)
    (hconn : 0 ≤ env.connectRet) (hsend : 0 ≤ env.sendRet 0) :
    main i t env =
      (loop i env.sendRet env.recvs t 0).after
        [.socketCreated, .connected, .dashesBlank, .sentInitial t] [prepare_message i t] := by
  have h1 : ¬ env.socketRet < 0 := by omega
  have h2 : ¬ env.connectRet < 0 := by omega
  have h3 : ¬ env.sendRet 0 < 0 := by omega
  simp [main, h1, h2, h3]

/-- The value returned and the number of `close` calls, by exit path. -/
theorem main_exit_ret (i : Int) (t : FP) (env : Env) :
    (((main i t env).exit = .converged ∨ (main i t env).exit = .peerClosed) ∧
        (main i t env).ret = some 0 ∧ (main i t env).closes = 1) ∨
    (((main i t env).exit = .socketError ∨ (main i t env).exit = .connectError ∨
        (main i t env).exit = .initialSendError ∨ (main i t env).exit = .recvError ∨
        (main i t env).exit = .sendError) ∧
        (main i t env).ret = some (-1) ∧ (main i t env).closes = 0) ∨
    ((main i t env).exit = .blocked ∧
        (main i t env).ret = none ∧ (main i t env).closes = 0) := by
  by_cases h1 : env.socketRet < 0
  · simp [main, h1, returnError]
  by_cases h2 : env.connectRet < 0
  · simp [main, h1, h2, returnError]
  by_cases h3 : env.sendRet 0 < 0
  · simp [main, h1, h2, h3, returnError]
  rw [main_connected i t env (by omega) (by omega) (by omega)]
  rcases loop_exit_ret i env.sendRet env.recvs t 0 with h | h | h
  · exact Or.inl h
  · obtain ⟨he, hr⟩ := h
    refine Or.inr (Or.inl ⟨?_, hr⟩)
    rcases he with he | he
    · exact Or.inr (Or.inr (Or.inr (Or.inl he)))
    · exact Or.inr (Or.inr (Or.inr (Or.inr he)))
  · exact Or.inr (Or.inr h)

/-- The temperature carried by the message with index `-1` plays no part. -/
theorem loop_sentinel_temp (i : Int) (s : Nat → Int) (rs : List Recv) (b : Int) (T1 T2 : FP)
    (rest1 rest2 : List Recv) (hb : 0 < b) (x : FP) (it : Nat) :
    loop i s (rs ++ ⟨b, ⟨T1, -1⟩⟩ :: rest1) x it =
      loop i s (rs ++ ⟨b, ⟨T2, -1⟩⟩ :: rest2) x it := by
  induction rs generalizing x it with
  | nil =>
    rw [List.nil_append, List.nil_append, loop_sentinel i s _ _ x it hb rfl,
      loop_sentinel i s _ _ x it hb rfl]
  | cons r rs ih =>
    simp only [List.cons_append]
    by_cases h1 : r.byte < 0
    · rw [loop_recv_error i s r _ x it h1, loop_recv_error i s r _ x it h1]
    by_cases h2 : r.byte = 0
    · rw [loop_closed i s r _ x it h2, loop_closed i s r _ x it h2]
    have h : 0 < r.byte := by omega
    by_cases h3 : r.buf.Index = -1
    · rw [loop_sentinel i s r _ x it h h3, loop_sentinel i s r _ x it h h3]
    by_cases h4 : s (it + 1) < 0
    · rw [loop_send_error i s r _ x it h h3 h4, loop_send_error i s r _ x it h h3 h4]
    rw [loop_round i s r _ x it h h3 (by omega), loop_round i s r _ x it h h3 (by omega), ih]

theorem temps_length (t : FP) (cs : List FP) : (temps t cs).length = cs.length := by
  induction cs generalizing t with
  | nil => rfl
  | cons c cs ih => simp [temps, ih]

theorem temps_getLast (t : FP) (cs : List FP) :
    (t :: temps t cs).getLast? = some (lastTemp t cs) := by
  induction cs generalizing t with
  | nil => rfl
  | cons c cs ih =>
    have := ih (updateTemp t c)
    simpa [temps, lastTemp, List.getLast?_cons_cons] using this

theorem temps_steady (x : FP) (hx : updateTemp x x = x) (cs : List FP) (hcs : ∀ c ∈ cs, c = x) :
    temps x cs = List.replicate cs.length x ∧ lastTemp x cs = x := by
  induction cs with
  | nil => exact ⟨rfl, rfl⟩
  | cons c cs ih =>
    have hc : c = x := hcs c (List.mem_cons_self _ _)
    have := ih (fun c2 h2 => hcs c2 (List.mem_cons_of_mem _ h2))
    subst hc
    simp [temps, lastTemp, hx, this, List.replicate_succ]

theorem sendOk_nonneg (k : Nat) : 0 ≤ sendOk k := by
  simp [sendOk, sizeof_msg]

/-- The update on central value `+0.0` from an integer temperature `a` whose
three fifths `r` are an integer. -/
theorem updateTemp_int_zero (a r : ℤ) (h : 3 * a = 5 * r) (ha : a ≠ 0) (hb : |a| < 2 ^ 20) :
    updateTemp (.fin a) (.zero false) = .fin r := by
  have hr0 : r ≠ 0 := by omega
  have hrb : |r| < 2 ^ 20 := by
    rw [abs_lt] at hb ⊢
    constructor <;> omega
  have habs3 : |3 * a| < 2 ^ 22 := by
    rw [abs_lt] at hb ⊢
    constructor <;> omega
  have cast_lt : ∀ (n : ℤ) (k : ℕ), |n| < 2 ^ k → |(n : ℚ)| < 2 ^ k := by
    intro n k hn
    exact_mod_cast hn
  have r3a := binary64.round_intCast (3 * a) (by omega)
    (lt_of_lt_of_le habs3 (by norm_num [binary64])) (by norm_num [Fmt.qmin, binary64])
    (lt_of_lt_of_le (cast_lt _ 22 habs3) (by norm_num [binary64]))
  have rr := binary64.round_intCast r hr0
    (lt_of_lt_of_le hrb (by norm_num [binary64])) (by norm_num [Fmt.qmin, binary64])
    (lt_of_lt_of_le (cast_lt _ 20 hrb) (by norm_num [binary64]))
  have sr := binary32.round_intCast r hr0
    (lt_of_lt_of_le hrb (by norm_num [binary32])) (by norm_num [Fmt.qmin, binary32])
    (lt_of_lt_of_le (cast_lt _ 20 hrb) (by norm_num [binary32]))
  have e1 : (3 : ℚ) * (a : ℚ) = ((3 * a : ℤ) : ℚ) := by push_cast; ring
  have e2 : ((3 * a : ℤ) : ℚ) / 5 = (r : ℚ) := by
    rw [h]; push_cast; field_simp
  have hs : (FP.fin 2).sign = false := by norm_num [FP.sign]
  simp only [updateTemp, f32_to_f64, mul64, add64, div64, f64_to_f32, hs, e1, r3a, e2, rr, sr,
    Bool.xor_false]

theorem updateTemp_100_0 : updateTemp (.fin 100) (.zero false) = .fin 60 := by
  simpa using updateTemp_int_zero 100 60 (by norm_num) (by norm_num) (by norm_num)

theorem updateTemp_60_0 : updateTemp (.fin 60) (.zero false) = .fin 36 := by
  simpa using updateTemp_int_zero 60 36 (by norm_num) (by norm_num) (by norm_num)

theorem isIn_100 : (FP.fin 100).IsIn binary32 := by
  have := binary32.rep_exact 100 0 (by norm_num) (by norm_num [binary32])
    (by norm_num [Fmt.qmin, binary32]) (by norm_num [binary32])
  simpa [FP.IsIn] using this

/-! ## The claims -/

/-- C1. End-to-end run: the socket is created, `connect` and every `send`
succeed, the first `recv` delivers a message with temperature `c` and an
index other than `-1`, the second one a message with index `-1`.  Then the
whole run is determined: the messages sent are exactly `{i, t}` and
`{i, updateTemp t c}`, one update is made and printed, nothing is sent after
the message with index `-1`, and the run ends converged, printing
`updateTemp t c` as the final temperature, with the socket closed and `0`
returned. -/
theorem end_to_end_one_round (i : Int) (t c c2 : FP) (j b1 b2 : Int) (env : Env)
    (rest : List Recv) (hsock : 0 ≤ env.socketRet) (hconn : 0 ≤ env.connectRet)
    (hsend : ∀ k, 0 ≤ env.sendRet k) (hb1 : 0 < b1) (hj : j ≠ -1) (hb2 : 0 < b2)
    (hrecv : env.recvs = ⟨b1, ⟨c, j⟩⟩ :: ⟨b2, ⟨c2, -1⟩⟩ :: rest) :
    main i t env =
      { exit := .converged, ret := some 0, closes := 1,
        sent := [{ T := t, Index := i }, { T := updateTemp t c, Index := i }],
        log := [.socketCreated, .connected, .dashesBlank, .sentInitial t,
          .dashes, .received 1 c, .updated 1 (updateTemp t c),
          .equals, .convergenceAchieved, .finalTemperature i (updateTemp t c), .equals],
        currentTemp := updateTemp t c } := by
  rw [main_connected i t env hsock hconn (hsend 0), hrecv,
    loop_round i env.sendRet _ _ t 0 hb1 hj (hsend _),
    loop_sentinel i env.sendRet _ _ _ _ hb2 rfl]
  simp [Outcome.after, leaveLoop, prepare_message]

/-- C1 at index 1, initial temperature 100.0 and central temperature 0.0: the
messages sent are `{1, 100.0}` and `{1, 60.0}`, and 60.0 is reported. -/
theorem end_to_end_one_round_witness :
    (main 1 (.fin 100) envOneRound).sent =
        [{ T := .fin 100, Index := 1 }, { T := .fin 60, Index := 1 }] ∧
      (main 1 (.fin 100) envOneRound).exit.terminal = some .Converged ∧
      reported (main 1 (.fin 100) envOneRound).log = some (.fin 60) ∧
      (main 1 (.fin 100) envOneRound).closes = 1 := by
  have h := end_to_end_one_round 1 (.fin 100) (.zero false) (.zero false) 0 8 8 envOneRound []
    (by decide) (by decide) (fun k => sendOk_nonneg k) (by decide) (by decide) (by decide) rfl
  rw [updateTemp_100_0] at h
  rw [h]
  simp [reported, Exit.terminal]

/-- C2. Update rule: a round that receives data with an index other than `-1`
and temperature `c` while `currentTemp` is `x` sets `currentTemp` to
`updateTemp x c`: the loop goes on from that value when the `send` succeeds,
and returns with it when the `send` fails.  `updateTemp x c` is
`(3.0 * x + 2.0 * c) / 5.0` in that order, evaluated in `double` and narrowed
to `float`; it is the real number `(3x + 2c) / 5` itself whenever `3x + 2c` is
a `double` and `(3x + 2c) / 5` a `float`; at 10.0 and 20.0 it is 14.0. -/
theorem update_rule (i : Int) (s : Nat → Int) (r : Recv) (rest : List Recv) (x : FP)
    (it : Nat) (h : 0 < r.byte) (hi : r.buf.Index ≠ -1) :
    (0 ≤ s (it + 1) →
        loop i s (r :: rest) x it =
          (loop i s rest (updateTemp x r.buf.T) (it + 1)).after
            [.dashes, .received (it + 1) r.buf.T, .updated (it + 1) (updateTemp x r.buf.T)]
            [{ T := updateTemp x r.buf.T, Index := i }]) ∧
      (s (it + 1) < 0 →
        (loop i s (r :: rest) x it).currentTemp = updateTemp x r.buf.T) ∧
      updateTemp x r.buf.T =
        f64_to_f32 (div64 (add64 (mul64 (.fin 3) x) (mul64 (.fin 2) r.buf.T)) (.fin 5)) ∧
      (∀ a c : ℚ, binary32.Rep a → binary32.Rep c → binary64.Rep (3 * a + 2 * c) →
        binary32.Rep ((3 * a + 2 * c) / 5) →
        updateTemp (.fin a) (.fin c) = .fin ((3 * a + 2 * c) / 5)) ∧
      updateTemp (.fin 10) (.fin 20) = .fin 14 := by
  refine ⟨fun hs => ?_, fun hs => ?_, rfl, updateTemp_exact, updateTemp_10_20⟩
  · rw [loop_round i s r rest x it h hi hs]; rfl
  · rw [loop_send_error i s r rest x it h hi hs]; rfl

/-- C2 at `currentTemp = 10.0` and a full message `{0, 20.0}`: the round
leaves 14.0 in `currentTemp` and sends `{1, 14.0}`. -/
theorem update_rule_witness :
    (loop 1 sendOk [⟨8, ⟨.fin 20, 0⟩⟩] (.fin 10) 0).currentTemp = .fin 14 ∧
      (loop 1 sendOk [⟨8, ⟨.fin 20, 0⟩⟩] (.fin 10) 0).sent = [{ T := .fin 14, Index := 1 }] := by
  have h := update_rule 1 sendOk ⟨8, ⟨.fin 20, 0⟩⟩ [] (.fin 10) 0 (by decide) (by decide)
  have h1 := h.1 (by decide)
  rw [h.2.2.2.2] at h1
  rw [h1]
  simp [loop, Outcome.after]

/-- C3. Fixed point of the update rule: for every `float` value `x`, the
update on a central value equal to `x` returns `x`; hence over any number of
consecutive rounds that each receive the current value, every message sent
carries `x` and the loop goes on from `x`. -/
theorem update_fixed_point (x : FP) (hx : x.IsIn binary32) :
    updateTemp x x = x ∧
      ∀ (i : Int) (s : Nat → Int) (rs tail : List Recv) (it : Nat),
        (∀ k, 0 ≤ s k) → (∀ r ∈ rs, 0 < r.byte ∧ r.buf.Index ≠ -1 ∧ r.buf.T = x) →
        ∃ ls, reported ls = none ∧
          loop i s (rs ++ tail) x it =
            (loop i s tail x (it + rs.length)).after ls
              (List.replicate rs.length { T := x, Index := i }) := by
  have hfix := updateTemp_self x hx
  refine ⟨hfix, fun i s rs tail it hs hrs => ?_⟩
  obtain ⟨ls, hls, heq⟩ :=
    loop_rounds i s hs rs (fun r hr => ⟨(hrs r hr).1, (hrs r hr).2.1⟩) tail x it
  have hc : ∀ c ∈ centrals rs, c = x := by
    intro c hc
    simp only [centrals, List.mem_map] at hc
    obtain ⟨r, hr, rfl⟩ := hc
    exact (hrs r hr).2.2
  obtain ⟨h1, h2⟩ := temps_steady x hfix (centrals rs) hc
  refine ⟨ls, hls, ?_⟩
  rw [heq, h1, h2]
  simp [centrals, prepare_message]

/-- C3 at 100.0: 100.0 is a `float`, two rounds that each receive 100.0 leave
the temperature at 100.0, and the run reports 100.0. -/
theorem update_fixed_point_witness :
    (FP.fin 100).IsIn binary32 ∧ updateTemp (.fin 100) (.fin 100) = .fin 100 ∧
      reported (loop 1 sendOk envSteady.recvs (.fin 100) 0).log = some (.fin 100) := by
  have h := update_fixed_point (.fin 100) isIn_100
  refine ⟨isIn_100, h.1, ?_⟩
  obtain ⟨ls, hls, heq⟩ := h.2 1 sendOk [⟨8, ⟨.fin 100, 0⟩⟩, ⟨8, ⟨.fin 100, 0⟩⟩]
    [⟨8, ⟨.zero false, -1⟩⟩] 0 sendOk_nonneg (by simp)
  have henv : envSteady.recvs =
      [⟨8, ⟨.fin 100, 0⟩⟩, ⟨8, ⟨.fin 100, 0⟩⟩] ++ [⟨8, ⟨.zero false, -1⟩⟩] := rfl
  rw [henv, heq]
  simp [Outcome.after, reported_append _ _ hls, loop, reported]

/-- C4. Sentinel handling: in every loop state, a `recv` that delivers data
with index `-1` ends the loop converged, whatever the temperature of that
message, the later `recv` results, the `send` results: `currentTemp` keeps its
value, that value is the one printed as final, nothing is sent, the socket is
closed and `0` returned.  Two runs that differ only in the temperature of the
message with index `-1` (and in what would follow it) are the same run. -/
theorem sentinel_converges (i : Int) (s : Nat → Int) (r : Recv) (rest : List Recv) (x : FP)
    (it : Nat) (h : 0 < r.byte) (hi : r.buf.Index = -1) :
    loop i s (r :: rest) x it =
        { exit := .converged, ret := some 0, closes := 1, sent := [],
          log := [.equals, .convergenceAchieved, .finalTemperature i x, .equals],
          currentTemp := x } ∧
      (loop i s (r :: rest) x it).exit.terminal = some .Converged ∧
      reported (loop i s (r :: rest) x it).log = some x ∧
      ∀ (t T2 : FP) (sock conn : Int) (rs rest2 : List Recv),
        main i t ⟨sock, conn, s, rs ++ r :: rest⟩ =
          main i t ⟨sock, conn, s, rs ++ ⟨r.byte, ⟨T2, -1⟩⟩ :: rest2⟩ := by
  have heq := loop_sentinel i s r rest x it h hi
  refine ⟨by rw [heq]; rfl, by rw [heq]; rfl, by rw [heq]; rfl, ?_⟩
  intro t T2 sock conn rs rest2
  have hr : r = ⟨r.byte, ⟨r.buf.T, -1⟩⟩ := by
    cases r with
    | mk b m => cases m with
      | mk T I => simp only [Recv.mk.injEq, msg.mk.injEq, true_and]; exact hi
  have hl := loop_sentinel_temp i s rs r.byte r.buf.T T2 rest rest2 h t 0
  rw [← hr] at hl
  simp only [main, hl]

/-- C4 at temperature 100.0 with a message `{-1, 0.0}`: the loop ends
converged and reports 100.0, with nothing sent. -/
theorem sentinel_converges_witness :
    (loop 1 sendOk [⟨8, ⟨.zero false, -1⟩⟩] (.fin 100) 0).exit = .converged ∧
      reported (loop 1 sendOk [⟨8, ⟨.zero false, -1⟩⟩] (.fin 100) 0).log = some (.fin 100) ∧
      (loop 1 sendOk [⟨8, ⟨.zero false, -1⟩⟩] (.fin 100) 0).sent = [] := by
  have h := (sentinel_converges 1 sendOk ⟨8, ⟨.zero false, -1⟩⟩ [] (.fin 100) 0
    (by decide) rfl).1
  rw [h]
  simp [reported]

/-- C5 as stated fails: when the first `recv` returns zero bytes the run ends in
the terminal state Terminated, not Converged, and `main` still returns `0`,
the success status. -/
theorem exit_status_counterexample :
    (main 1 (.fin 100) envPeerCloses).exit.terminal = some .Terminated ∧
      (main 1 (.fin 100) envPeerCloses).ret = some 0 ∧
      exitStatus (main 1 (.fin 100) envPeerCloses) = some 0 ∧
      ¬ (exitStatus (main 1 (.fin 100) envPeerCloses) = some 0 ↔
          (main 1 (.fin 100) envPeerCloses).exit.terminal = some .Converged) := by
  have h : main 1 (.fin 100) envPeerCloses =
      (leaveLoop .peerClosed [.serverTerminated] (.fin 100)).after
        [.socketCreated, .connected, .dashesBlank, .sentInitial (.fin 100)]
        [prepare_message 1 (.fin 100)] := by
    rw [main_connected 1 (.fin 100) envPeerCloses (by decide) (by decide) (sendOk_nonneg 0)]
    rfl
  rw [h]
  simp [Outcome.after, leaveLoop, Exit.terminal, exitStatus]

/-- C5, amended. Exit status: the process exits with status 0 exactly when
the loop ended in Converged or in Terminated (both leave the loop by `break`
and reach `return 0`); it exits with status 255 (`return -1`) exactly when
the run ended in Failed; and there is no exit status exactly when `recv`
blocks for ever. -/
theorem exit_status_by_terminal (i : Int) (t : FP) (env : Env) :
    (exitStatus (main i t env) = some 0 ↔
        ((main i t env).exit.terminal = some .Converged ∨
          (main i t env).exit.terminal = some .Terminated)) ∧
      (exitStatus (main i t env) = some 255 ↔
        (main i t env).exit.terminal = some .Failed) ∧
      (exitStatus (main i t env) = none ↔ (main i t env).exit.terminal = none) := by
  rcases main_exit_ret i t env with ⟨he, hr, -⟩ | ⟨he, hr, -⟩ | ⟨he, hr, -⟩
  · rcases he with he | he <;> simp [exitStatus, hr, he, Exit.terminal]
  · rcases he with he | he | he | he | he <;> simp [exitStatus, hr, he, Exit.terminal]
  · simp [exitStatus, hr, he, Exit.terminal]

/-- C6. Peer close: in every loop state, a `recv` that returns zero bytes ends
the loop in Terminated, which is neither Converged nor Failed: `currentTemp`
keeps its value, no final temperature is printed, nothing is sent, the socket
is closed once and `0` is returned.  In particular, when the socket is
created, `connect` and the initial `send` succeed and the first `recv` returns
zero bytes, the client has sent its initial message only, ends in Terminated,
and has closed the socket exactly once. -/
theorem peer_close_terminates (i : Int) (s : Nat → Int) (r : Recv) (rest : List Recv) (x : FP)
    (it : Nat) (h : r.byte = 0) :
    loop i s (r :: rest) x it =
        { exit := .peerClosed, ret := some 0, closes := 1, sent := [],
          log := [.serverTerminated], currentTemp := x } ∧
      (loop i s (r :: rest) x it).exit.terminal = some .Terminated ∧
      (loop i s (r :: rest) x it).exit.terminal ≠ some .Converged ∧
      (loop i s (r :: rest) x it).exit.terminal ≠ some .Failed ∧
      reported (loop i s (r :: rest) x it).log = none ∧
      ∀ (t : FP) (env : Env), 0 ≤ env.socketRet → 0 ≤ env.connectRet → 0 ≤ env.sendRet 0 →
        env.sendRet = s → env.recvs = r :: rest →
        (main i t env).sent = [{ T := t, Index := i }] ∧
          (main i t env).exit.terminal = some .Terminated ∧
          (main i t env).closes = 1 ∧ (main i t env).currentTemp = t := by
  have heq := loop_closed i s r rest x it h
  refine ⟨by rw [heq]; rfl, by rw [heq]; rfl, by rw [heq]; simp [leaveLoop, Exit.terminal],
    by rw [heq]; simp [leaveLoop, Exit.terminal], by rw [heq]; rfl, ?_⟩
  intro t env hsock hconn hsend hs hrecv
  rw [main_connected i t env hsock hconn hsend, hrecv, hs, loop_closed i s r rest t 0 h]
  simp [Outcome.after, leaveLoop, Exit.terminal, prepare_message]

/-- C6 on the run where the central process closes the connection at once:
only `{1, 100.0}` was sent, the run ends in Terminated, the socket is closed
once. -/
theorem peer_close_terminates_witness :
    (main 1 (.fin 100) envPeerCloses).sent = [{ T := .fin 100, Index := 1 }] ∧
      (main 1 (.fin 100) envPeerCloses).exit.terminal = some .Terminated ∧
      (main 1 (.fin 100) envPeerCloses).closes = 1 ∧
      (main 1 (.fin 100) envPeerCloses).currentTemp = .fin 100 :=
  (peer_close_terminates 1 sendOk ⟨0, ⟨.fin 100, 1⟩⟩ [] (.fin 100) 0 rfl).2.2.2.2.2
    (.fin 100) envPeerCloses (by decide) (by decide) (sendOk_nonneg 0) rfl rfl

/-- C7 fails on the code: on each of the four error paths after the socket
was created (`connect` fails, the initial `send` fails, `recv` fails, the
`send` of a round fails) `main` returns `-1` without a call of `close`. -/
theorem error_paths_do_not_close :
    ((main 1 (.fin 100) envConnectFails).exit = .connectError ∧
        (main 1 (.fin 100) envConnectFails).closes = 0) ∧
      ((main 1 (.fin 100) envInitialSendFails).exit = .initialSendError ∧
        (main 1 (.fin 100) envInitialSendFails).closes = 0) ∧
      ((main 1 (.fin 100) envRecvFails).exit = .recvError ∧
        (main 1 (.fin 100) envRecvFails).closes = 0) ∧
      ((main 1 (.fin 100) envRoundSendFails).exit = .sendError ∧
        (main 1 (.fin 100) envRoundSendFails).closes = 0) := by
  refine ⟨?_, ?_, ?_, ?_⟩
  · simp [main, envConnectFails, returnError]
  · simp [main, envInitialSendFails, returnError]
  · simp [main, envRecvFails, loop, sendOk, sizeof_msg, returnError, Outcome.after]
  · simp [main, envRoundSendFails, loop, returnError, Outcome.after]

/-- C8 as stated fails: a `recv` that delivers 4 of the 8 bytes is taken for a
complete message.  With `the_message` left at `{1, 100.0}` the client makes
its update (printing it), sends `{1, 100.0}` a second time, and waits for the
next message: the run is not in Failed. -/
theorem short_read_counterexample :
    (0 < (4 : Int) ∧ (4 : Int) < sizeof_msg) ∧
      (main 1 (.fin 100) envShortRead).sent =
        [{ T := .fin 100, Index := 1 }, { T := .fin 100, Index := 1 }] ∧
      (main 1 (.fin 100) envShortRead).log =
        [.socketCreated, .connected, .dashesBlank, .sentInitial (.fin 100),
          .dashes, .received 1 (.fin 100), .updated 1 (.fin 100)] ∧
      (main 1 (.fin 100) envShortRead).exit = .blocked ∧
      (main 1 (.fin 100) envShortRead).exit.terminal ≠ some .Failed := by
  have hu := updateTemp_self (.fin 100) isIn_100
  have h1 : main 1 (.fin 100) envShortRead =
      ((loop 1 sendOk [] (updateTemp (.fin 100) (.fin 100)) 1).after
          [.dashes, .received 1 (.fin 100), .updated 1 (updateTemp (.fin 100) (.fin 100))]
          [prepare_message 1 (updateTemp (.fin 100) (.fin 100))]).after
        [.socketCreated, .connected, .dashesBlank, .sentInitial (.fin 100)]
        [prepare_message 1 (.fin 100)] := by
    have hl : loop 1 envShortRead.sendRet envShortRead.recvs (.fin 100) 0 = _ :=
      loop_round 1 sendOk ⟨4, ⟨.fin 100, 1⟩⟩ [] (.fin 100) 0 (by decide) (by decide)
        (sendOk_nonneg 1)
    rw [main_connected 1 (.fin 100) envShortRead (by decide) (by decide) (sendOk_nonneg 0), hl]
  rw [h1, hu]
  simp [Outcome.after, loop, leaveLoop, Exit.terminal, prepare_message, sizeof_msg]

/-- C8, amended. The byte count of a `recv` is only compared with zero: a
`recv` that delivers any positive number of bytes, a short read of 1 to
width-1 bytes included, is handled exactly as a `recv` of a full message that
leaves the same contents in `the_message`. -/
theorem positive_recv_as_full (i : Int) (s : Nat → Int) (r : Recv) (rest : List Recv) (x : FP)
    (it : Nat) (h : 0 < r.byte) :
    loop i s (r :: rest) x it = loop i s (⟨sizeof_msg, r.buf⟩ :: rest) x it := by
  have h1 : ¬ r.byte < 0 := by omega
  have h2 : r.byte ≠ 0 := by omega
  simp [loop, h1, h2, sizeof_msg]

/-- C8 amended, at a read of 4 bytes: the loop does what it does on the full
message. -/
theorem positive_recv_as_full_witness :
    loop 1 sendOk [⟨4, ⟨.fin 100, 1⟩⟩] (.fin 100) 0 =
      loop 1 sendOk [⟨sizeof_msg, ⟨.fin 100, 1⟩⟩] (.fin 100) 0 :=
  positive_recv_as_full 1 sendOk ⟨4, ⟨.fin 100, 1⟩⟩ [] (.fin 100) 0 (by decide)

/-- C9 as stated fails: started with index `-1`, the client sends an initial
message whose index is `-1`. -/
theorem sentinel_sent_counterexample :
    (main (-1) (.fin 100) envSilent).sent = [{ T := .fin 100, Index := -1 }] ∧
      ∃ m ∈ (main (-1) (.fin 100) envSilent).sent, m.Index = -1 := by
  have h : (main (-1) (.fin 100) envSilent).sent = [{ T := .fin 100, Index := -1 }] := by
    rw [main_connected (-1) (.fin 100) envSilent (by decide) (by decide) (sendOk_nonneg 0)]
    rfl
  exact ⟨h, by rw [h]; exact ⟨_, List.mem_singleton.mpr rfl, rfl⟩⟩

/-- C9, amended. For every configured index other than `-1`, every initial
temperature and every environment, each message the client sends carries the
configured index, so none has index `-1`. -/
theorem sent_index_configured (i : Int) (t : FP) (env : Env) (hi : i ≠ -1) :
    ∀ m ∈ (main i t env).sent, m.Index = i ∧ m.Index ≠ -1 := by
  have key : ∀ m ∈ (main i t env).sent, m.Index = i := by
    by_cases h1 : env.socketRet < 0
    · simp [main, h1, returnError]
    by_cases h2 : env.connectRet < 0
    · simp [main, h1, h2, returnError]
    by_cases h3 : env.sendRet 0 < 0
    · simp [main, h1, h2, h3, returnError]
    rw [main_connected i t env (by omega) (by omega) (by omega)]
    intro m hm
    simp only [Outcome.after, List.mem_append, List.mem_singleton] at hm
    rcases hm with hm | hm
    · rw [hm]; rfl
    · exact loop_sent_index i env.sendRet env.recvs t 0 m hm
  intro m hm
  have := key m hm
  exact ⟨this, by rw [this]; exact hi⟩

/-- C9 amended, at index 1 on the run of two rounds. -/
theorem sent_index_configured_witness :
    (1 : Int) ≠ -1 ∧
      ∀ m ∈ (main 1 (.fin 100) envTwoRounds).sent, m.Index = 1 ∧ m.Index ≠ -1 :=
  ⟨by decide, sent_index_configured 1 (.fin 100) envTwoRounds (by decide)⟩

/-- C10. Round-by-round trace: the socket is created, `connect` and every
`send` succeed, the `recv` results are `rs` (each with data and an index
other than `-1`, `k` of them, `k ≥ 0`) followed by a message with index `-1`.
Then the client sends exactly `k + 1` messages, all with the configured index
`i` whatever index the replies carried; the first carries `t` and the
`(j+1)`-th carries `T_j`, where `T_j` is the update of `T_(j-1)` on the `j`-th
central value alone; the run ends converged and the final temperature printed
is `T_k`, the last of them. -/
theorem round_by_round_trace (i : Int) (t : FP) (env : Env) (rs : List Recv) (sen : Recv)
    (rest : List Recv) (hsock : 0 ≤ env.socketRet) (hconn : 0 ≤ env.connectRet)
    (hsend : ∀ k, 0 ≤ env.sendRet k) (hrs : ∀ r ∈ rs, 0 < r.byte ∧ r.buf.Index ≠ -1)
    (hsen : 0 < sen.byte ∧ sen.buf.Index = -1) (hrecv : env.recvs = rs ++ sen :: rest) :
    (main i t env).sent =
        (t :: temps t (centrals rs)).map (fun T => { T := T, Index := i }) ∧
      (main i t env).sent.length = rs.length + 1 ∧
      (∀ m ∈ (main i t env).sent, m.Index = i) ∧
      (main i t env).exit.terminal = some .Converged ∧
      reported (main i t env).log = some (lastTemp t (centrals rs)) ∧
      (main i t env).currentTemp = lastTemp t (centrals rs) ∧
      (t :: temps t (centrals rs)).getLast? = some (lastTemp t (centrals rs)) := by
  obtain ⟨ls, hls, heq⟩ := loop_rounds i env.sendRet hsend rs hrs (sen :: rest) t 0
  have hmain : main i t env =
      (leaveLoop .converged
          [.equals, .convergenceAchieved, .finalTemperature i (lastTemp t (centrals rs)),
            .equals] (lastTemp t (centrals rs))).after
        ([.socketCreated, .connected, .dashesBlank, .sentInitial t] ++ ls)
        ([prepare_message i t] ++ (temps t (centrals rs)).map (prepare_message i)) := by
    rw [main_connected i t env hsock hconn (hsend 0), hrecv, heq,
      loop_sentinel i env.sendRet sen rest _ _ hsen.1 hsen.2, after_after]
  have hsent : (main i t env).sent =
      (t :: temps t (centrals rs)).map (fun T => { T := T, Index := i }) := by
    rw [hmain]
    simp [Outcome.after, leaveLoop, prepare_message]
  refine ⟨hsent, ?_, ?_, ?_, ?_, ?_, temps_getLast t (centrals rs)⟩
  · rw [hsent]
    simp [temps_length, centrals]
  · intro m hm
    rw [hsent] at hm
    simp only [List.mem_map] at hm
    obtain ⟨T, -, rfl⟩ := hm
    rfl
  · rw [hmain]; rfl
  · rw [hmain]
    simp only [Outcome.after, leaveLoop, List.append_assoc]
    rw [reported_append _ _ (by simp [reported]), reported_append _ _ hls]
    rfl
  · rw [hmain]; rfl

/-- C10 from 100.0 on two replies of 0.0 (carrying indices 0 and 7): the client
sends `{1, 100.0}`, `{1, 60.0}`, `{1, 36.0}` and reports 36.0. -/
theorem round_by_round_trace_witness :
    (main 1 (.fin 100) envTwoRounds).sent =
        [{ T := .fin 100, Index := 1 }, { T := .fin 60, Index := 1 },
          { T := .fin 36, Index := 1 }] ∧
      (main 1 (.fin 100) envTwoRounds).exit.terminal = some .Converged ∧
      reported (main 1 (.fin 100) envTwoRounds).log = some (.fin 36) := by
  have h := round_by_round_trace 1 (.fin 100) envTwoRounds
    [⟨8, ⟨.zero false, 0⟩⟩, ⟨8, ⟨.zero false, 7⟩⟩] ⟨8, ⟨.fin 5, -1⟩⟩ []
    (by decide) (by decide) (fun k => sendOk_nonneg k) (by simp) (by simp) rfl
  have ht : temps (.fin 100) (centrals [⟨8, ⟨.zero false, 0⟩⟩, ⟨8, ⟨.zero false, 7⟩⟩]) =
      [.fin 60, .fin 36] := by
    simp [temps, centrals, updateTemp_100_0, updateTemp_60_0]
  have hl : lastTemp (.fin 100) (centrals [⟨8, ⟨.zero false, 0⟩⟩, ⟨8, ⟨.zero false, 7⟩⟩]) =
      .fin 36 := by
    simp [lastTemp, centrals, updateTemp_100_0, updateTemp_60_0]
  rw [ht, hl] at h
  exact ⟨by rw [h.1]; rfl, h.2.2.2.1, h.2.2.2.2.1⟩

end TempClient
